import Mathlib

/-!
Shallow embedding of `src/update_component_versions.py` (the only source file
of the repository).  The script loads `config/metadata.json`, queries GitHub
for the latest release of four pinned components, filters the release tags,
writes changed versions back into the JSON document along dotted key paths,
and emits a human-readable change list to the GitHub Actions output file.

Pure string/list plumbing is translated directly; the two effectful
boundaries (reading/parsing the metadata file, and the GitHub API call) are
modelled as explicit inputs (`LoadResult`, `FetchResult`): the script has a
single `try/except` around the API call and two handlers around the file
load, and no other exception handling, so an uncaught Python exception is
modelled as `Option.none` (for `update_metadata_value`) respectively
`MainResult.crash` (for `main`).
-/

/-- JSON values as they occur in `config/metadata.json`: strings, numbers and
objects.  Objects are association lists in document order (Python dicts keep
insertion order; the script only ever replaces the value of an existing key,
never inserts or deletes one). -/
inductive Json where
  | str : String → Json
  | num : Int → Json
  | obj : List (String × Json) → Json

/-- Python `d[k]` / `k in d` on a dict, as first-match lookup on the
association list. -/
def lookupKey (k : String) : List (String × Json) → Option Json
  | [] => none
  | kv :: rest => if kv.1 = k then some kv.2 else lookupKey k rest

/-- Python `d[k] = v` on a dict that already holds key `k`: the value of the
first matching pair is replaced in place, everything else is untouched. -/
def setKey (k : String) (v : Json) : List (String × Json) → List (String × Json)
  | [] => []
  | kv :: rest => if kv.1 = k then (kv.1, v) :: rest else kv :: setKey k v rest

/-- Python `s.split(sep)` for a one-character separator, on character lists:
`"a.b".split('.') == ["a","b"]`, `"".split('.') == [""]`,
`"a..b".split('.') == ["a","","b"]`. -/
def splitCharsOn (c : Char) : List Char → List (List Char)
  | [] => [[]]
  | a :: as =>
    if a = c then [] :: splitCharsOn c as
    else
      match splitCharsOn c as with
      | [] => [[a]]
      | g :: gs => (a :: g) :: gs

/-- Python `key_path.split('.')`. -/
def splitPath (s : String) : List String :=
  (splitCharsOn '.' s.toList).map String.mk

/-- Python `key_path.split('.')[-1]` (the split list is never empty, so the
default is never used). -/
def lastSeg (s : String) : String :=
  (splitPath s).getLastD ""

/-- Whether `needle` occurs at the start of `hay`. -/
def isPrefCh : List Char → List Char → Bool
  | [], _ => true
  | _ :: _, [] => false
  | a :: as, b :: bs => if a = b then isPrefCh as bs else false

/-- Python `needle in hay` on strings (contiguous substring test), on
character lists. -/
def hasSub (needle : List Char) : List Char → Bool
  | [] => isPrefCh needle []
  | b :: bs => isPrefCh needle (b :: bs) || hasSub needle bs

/-- Python `needle in hay` on strings. -/
def hasSubStr (needle hay : String) : Bool :=
  hasSub needle.toList hay.toList

/-- All characters are ASCII digits. -/
def allDigits (l : List Char) : Bool :=
  l.all Char.isDigit

/-- Python `re.match(r'^\d+\.\d+\.\d+$', s)` (karpenter) and
`re.match(r'^[0-9]+\.[0-9]+\.[0-9]+$', s)` (datadog): the string is exactly
three nonempty runs of digits separated by dots.  The two regexes coincide on
the digit alphabet of git tag names (modelled as ASCII digits). -/
def semver3 (s : String) : Bool :=
  match splitCharsOn '.' s.toList with
  | [a, b, c] =>
    !a.isEmpty && !b.isEmpty && !c.isEmpty && allDigits a && allDigits b && allDigits c
  | _ => false

/-- Lines 47-50 of the script: `version = release.tag_name`, then
`if version.startswith('v'): version = version[1:]` — strip exactly one
leading `v` when present. -/
def cleanTag (tag : String) : String :=
  match tag.toList with
  | 'v' :: rest => String.mk rest
  | _ => tag

/-- The two component-specific tag filters (lines 52-64).  The two source
`if` blocks are guarded by mutually exclusive values of `check_tag_format`,
so they are rendered as one conditional chain: for `karpenter` the cleaned
version must not contain `-controller-` and must match the semver regex; for
`datadog` it must match the semver regex; otherwise every version passes. -/
def versionOk (check_tag_format : Option String) (version : String) : Bool :=
  if check_tag_format = some "karpenter" then
    !hasSubStr "-controller-" version && semver3 version
  else if check_tag_format = some "datadog" then
    semver3 version
  else
    true

/-- One GitHub release as used by the script: its `tag_name` and its
`prerelease` flag. -/
structure Release where
  tag_name : String
  prerelease : Bool

/-- The body of the `for release in releases` loop (lines 42-67): `none`
means `continue`, `some v` means `return version`.  `totalCount` is the total
number of listed releases. -/
def releaseAccepted (totalCount : Nat) (check_tag_format : Option String)
    (r : Release) : Option String :=
  if 1 < totalCount ∧ r.prerelease = true then none
  else
    let version := cleanTag r.tag_name
    if versionOk check_tag_format version then some version else none

/-- The release loop itself: return the first accepted version, else fall
through to `return None`. -/
def findRelease (totalCount : Nat) (check_tag_format : Option String) :
    List Release → Option String
  | [] => none
  | r :: rs =>
    match releaseAccepted totalCount check_tag_format r with
    | some v => some v
    | none => findRelease totalCount check_tag_format rs

/-- Outcome of the GitHub API interaction inside the `try` block: either the
release list was obtained, or some exception was raised. -/
inductive FetchResult where
  | success : List Release → FetchResult
  | failure : FetchResult

/-- `get_github_release_info` (lines 34-73).  The network interaction is an
explicit `FetchResult` input; the `except` clause turns any raised exception
into `None`.  `releases.totalCount` is the length of the listed releases. -/
def get_github_release_info (fetched : FetchResult)
    (check_tag_format : Option String) : Option String :=
  match fetched with
  | .failure => none
  | .success releases => findRelease releases.length check_tag_format releases

/-- Python `current[last_key] != value` where `value` is the version string:
a dict or int compares unequal to a string, strings compare by contents. -/
def pyEqStr (j : Json) (v : String) : Bool :=
  match j with
  | .str s => decide (s = v)
  | _ => false

/-- The final step of `update_metadata_value` once `current` has been reached
and `last_key` remains (lines 88-97).  On a dict: if the key is present and
its value differs from `value`, the value is replaced and `True` returned,
otherwise nothing changes and `False` is returned.  On a string or number,
the Python code raises (`last_key in current` on an int is a `TypeError`; on
a string it is a substring test followed either by `current[last_key]`, a
`TypeError`, or by `current.get(...)` in the log line, an `AttributeError`),
modelled as `none`. -/
def updateFinal (value : String) (current : Json) (lastKey : String) :
    Option (Bool × Json) :=
  match current with
  | .obj kvs =>
    match lookupKey lastKey kvs with
    | some old =>
      if pyEqStr old value then some (false, Json.obj kvs)
      else some (true, Json.obj (setKey lastKey (Json.str value) kvs))
    | none => some (false, Json.obj kvs)
  | .str _ => none
  | .num _ => none

/-- The recursion of `update_metadata_value` over the split key path.  The
`for k in keys[:-1]` navigation (lines 81-85): a missing key on a dict prints
a warning and returns `False`; descending into a string leaf is Python's
substring membership test followed by `current[k]`, a `TypeError` when the
test succeeds, and a graceful `False` when it fails; membership on an int
raises immediately.  In-place mutation of the shared dict is rendered as
rebuilding the spine with `setKey`.  The empty path cannot arise from
`split('.')`; Python would raise `IndexError` on `keys[-1]`. -/
def updatePath (value : String) : Json → List String → Option (Bool × Json)
  | _, [] => none
  | current, [k] => updateFinal value current k
  | current, k :: k2 :: rest =>
    match current with
    | .obj kvs =>
      match lookupKey k kvs with
      | some child =>
        match updatePath value child (k2 :: rest) with
        | some (b, child2) => some (b, Json.obj (setKey k child2 kvs))
        | none => none
      | none => some (false, Json.obj kvs)
    | .str s => if hasSub k.toList s.toList then none else some (false, Json.str s)
    | .num _ => none

/-- `update_metadata_value` (lines 75-97): split the dotted path and walk it.
`some (b, m)` is a normal return of `b` with the (possibly mutated) document
`m`; `none` is an uncaught Python exception. -/
def update_metadata_value (metadata : Json) (key_path : String) (value : String) :
    Option (Bool × Json) :=
  updatePath value metadata (splitPath key_path)

/-- The `metadata_key` entry of a component descriptor: a single dotted path
or a list of them (the script distinguishes the two with `isinstance`). -/
inductive MetadataKey where
  | single : String → MetadataKey
  | multi : List String → MetadataKey

/-- One component descriptor from the `COMPONENTS` table.  The `type` field
is the constant `"github"` and is never read; `chart_path` is present only
for datadog and is never read either. -/
structure ComponentConfig where
  github_repo : String
  chart_path : Option String
  metadata_key : MetadataKey

/-- The `COMPONENTS` table (lines 10-32), in dict insertion order. -/
def COMPONENTS : List (String × ComponentConfig) :=
  [ ("karpenter",
      { github_repo := "aws/karpenter-provider-aws",
        chart_path := none,
        metadata_key := MetadataKey.single "karpenter.version" }),
    ("aws-load-balancer-controller",
      { github_repo := "kubernetes-sigs/aws-load-balancer-controller",
        chart_path := none,
        metadata_key := MetadataKey.single "aws_ingress_controller.version" }),
    ("datadog",
      { github_repo := "DataDog/helm-charts",
        chart_path := some "charts/datadog",
        metadata_key := MetadataKey.single "datadog.agent_version" }),
    ("wiz",
      { github_repo := "wiz-sec/charts",
        chart_path := none,
        metadata_key := MetadataKey.multi
          ["wiz.connector.version", "wiz.sensor.version",
           "wiz.admission_controller.version"] }) ]

/-- Line 128: `check_tag_format = component_name if component_name in
['karpenter', 'datadog'] else None`. -/
def checkTagFormatFor (name : String) : Option String :=
  if name = "karpenter" ∨ name = "datadog" then some name else none

/-- Python truthiness of the fetched version at line 131
(`if not latest_version`): an empty string is falsy. -/
def pyTruthy (s : String) : Bool :=
  !s.isEmpty

/-- The change line appended at lines 141/146:
`f"{component_name}: {key_path.split('.')[-1]} updated to {latest_version}"`. -/
def changeLine (component_name key_path version : String) : String :=
  component_name ++ ": " ++ lastSeg key_path ++ " updated to " ++ version

/-- One `update_metadata_value` call from `main` together with the
conditional append to `changes`. -/
def applyKey (component_name version : String) (acc : Json × List String)
    (key_path : String) : Option (Json × List String) :=
  match update_metadata_value acc.1 key_path version with
  | none => none
  | some (true, m2) => some (m2, acc.2 ++ [changeLine component_name key_path version])
  | some (false, m2) => some (m2, acc.2)

/-- The `for key_path in config["metadata_key"]` loop of the list branch
(lines 137-142); an uncaught exception aborts the whole script. -/
def applyKeyList (component_name version : String) :
    List String → Json × List String → Option (Json × List String)
  | [], acc => some acc
  | kp :: rest, acc =>
    match applyKey component_name version acc kp with
    | some acc2 => applyKeyList component_name version rest acc2
    | none => none

/-- Lines 136-147: single-key and multi-key branches. -/
def applyComponentKeys (component_name version : String) (mk : MetadataKey)
    (acc : Json × List String) : Option (Json × List String) :=
  match mk with
  | .single kp => applyKey component_name version acc kp
  | .multi kps => applyKeyList component_name version kps acc

/-- The body of the `for component_name, config in COMPONENTS.items()` loop
(lines 124-152): fetch, skip on falsy version, otherwise update the key
paths.  The `updated` flag only drives log lines and is dropped. -/
def processComponent (fetch : String → FetchResult) (acc : Json × List String)
    (comp : String × ComponentConfig) : Option (Json × List String) :=
  match get_github_release_info (fetch comp.1) (checkTagFormatFor comp.1) with
  | none => some acc
  | some v =>
    if pyTruthy v then applyComponentKeys comp.1 v comp.2.metadata_key acc
    else some acc

/-- The component loop of `main`, threading the metadata document and the
`changes` list; `none` is an uncaught exception aborting the script. -/
def runComponents (fetch : String → FetchResult) :
    List (String × ComponentConfig) → Json × List String → Option (Json × List String)
  | [], acc => some acc
  | c :: cs, acc =>
    match processComponent fetch acc c with
    | some acc2 => runComponents fetch cs acc2
    | none => none

/-- Outcome of loading `config/metadata.json` (lines 107-115): missing file,
invalid JSON, or the parsed document. -/
inductive LoadResult where
  | fileNotFound : LoadResult
  | invalidJson : LoadResult
  | ok : Json → LoadResult

/-- Outcome of `main`: `exit1` is `sys.exit(1)` before any fetch, write or
output; `crash` is an uncaught exception (the metadata file is not written);
`finished` carries the document written back to `config/metadata.json` and
the final `changes` list. -/
inductive MainResult where
  | exit1 : MainResult
  | crash : MainResult
  | finished : Json → List String → MainResult

/-- `main` (lines 99-166) over the two effectful inputs. -/
def runMain (load : LoadResult) (fetch : String → FetchResult) : MainResult :=
  match load with
  | .fileNotFound => .exit1
  | .invalidJson => .exit1
  | .ok metadata =>
    match runComponents fetch COMPONENTS (metadata, ([] : List String)) with
    | none => .crash
    | some (m2, changes) => .finished m2 changes

/-- Lines 159-163: the block appended to the `GITHUB_OUTPUT` file, written
exactly when `changes` is non-empty. -/
def githubOutput (changes : List String) : Option String :=
  if changes.isEmpty then none
  else some ("changes<<EOF\n" ++ String.intercalate "\n" changes ++ "\nEOF\n")

/-- Observer: resolve a (split) dotted key path inside a document, `none`
when a key is missing or a non-object is hit before the path ends. -/
def lookupPath : Json → List String → Option Json
  | j, [] => some j
  | j, k :: rest =>
    match j with
    | .obj kvs =>
      match lookupKey k kvs with
      | some c => lookupPath c rest
      | none => none
    | _ => none

/-- Observer: the string stored at a dotted key path (empty when the path
does not resolve to a string leaf). -/
def strAt (m : Json) (key_path : String) : String :=
  match lookupPath m (splitPath key_path) with
  | some (Json.str s) => s
  | _ => ""

/-- The dotted key paths of one component descriptor. -/
def keyPathsOf (mk : MetadataKey) : List String :=
  match mk with
  | .single kp => [kp]
  | .multi kps => kps

/-- All `(component name, dotted key path)` pairs of a component table, in
processing order. -/
def collectPairs : List (String × ComponentConfig) → List (String × String)
  | [] => []
  | c :: cs => (keyPathsOf c.2.metadata_key).map (fun k => (c.1, k)) ++ collectPairs cs

/-- All dotted key paths named by the `COMPONENTS` table. -/
def allKeyPaths : List String :=
  (collectPairs COMPONENTS).map Prod.snd

/-- Observer: `p` is a (possibly improper) prefix of `q`, segmentwise. -/
def pathPref : List String → List String → Bool
  | [], _ => true
  | _ :: _, [] => false
  | a :: as, b :: bs => if a = b then pathPref as bs else false

/-- Observer: two split key paths are separated — neither is a prefix of the
other, so they address disjoint parts of a document. -/
def sepPaths (p q : List String) : Prop :=
  pathPref p q = false ∧ pathPref q p = false

instance sepPathsDec (p q : List String) : Decidable (sepPaths p q) :=
  inferInstanceAs (Decidable (pathPref p q = false ∧ pathPref q p = false))

/-- Observer: walking the (split) path from this document meets only objects
until some key of the path is found absent. -/
def missingOnObjPath : Json → List String → Bool
  | _, [] => false
  | j, k :: rest =>
    match j with
    | .obj kvs =>
      match lookupKey k kvs with
      | some c => missingOnObjPath c rest
      | none => true
    | _ => false

/-- Specification shape for the acceptance regexes: exactly three nonempty
all-digit groups joined by dots. -/
def ThreeNumeric (s : String) : Prop :=
  ∃ a b c : String,
    s = a ++ "." ++ b ++ "." ++ c ∧
    a ≠ "" ∧ b ≠ "" ∧ c ≠ "" ∧
    (∀ ch ∈ a.toList, ch.isDigit = true) ∧
    (∀ ch ∈ b.toList, ch.isDigit = true) ∧
    (∀ ch ∈ c.toList, ch.isDigit = true)

/-- Specification shape for Python's substring membership. -/
def HasSubSeq (needle hay : List Char) : Prop :=
  ∃ x y, hay = x ++ needle ++ y

/-- Inverse of `splitCharsOn`: rejoin the groups with the separator. -/
def joinSplit (c : Char) : List (List Char) → List Char
  | [] => []
  | [g] => g
  | g :: gs => g ++ c :: joinSplit c gs

/-! ### Association-list lemmas -/

theorem setKey_of_lookup_self (k : String) (c : Json) :
    ∀ kvs : List (String × Json), lookupKey k kvs = some c → setKey k c kvs = kvs := by
  intro kvs
  induction kvs with
  | nil => intro h; simp [lookupKey] at h
  | cons kv rest ih =>
    intro h
    by_cases hk : kv.1 = k
    · simp only [lookupKey, hk, if_pos] at h
      cases h
      simp only [setKey, hk, if_pos]
      rw [← hk]
    · simp only [lookupKey, hk, if_neg, ite_false] at h
      simp only [setKey, hk, if_neg, ite_false]
      rw [ih h]

theorem lookupKey_setKey_self (k : String) (v : Json) :
    ∀ kvs : List (String × Json), (lookupKey k kvs).isSome →
      lookupKey k (setKey k v kvs) = some v := by
  intro kvs
  induction kvs with
  | nil => intro h; simp [lookupKey] at h
  | cons kv rest ih =>
    intro h
    by_cases hk : kv.1 = k
    · simp only [setKey, hk, if_pos]
      simp [lookupKey, hk]
    · simp only [lookupKey, hk, if_neg, ite_false] at h
      simp only [setKey, hk, if_neg, ite_false]
      simp only [lookupKey, hk, if_neg, ite_false]
      exact ih h

theorem lookupKey_setKey_ne (k k2 : String) (v : Json) (hne : k2 ≠ k) :
    ∀ kvs : List (String × Json), lookupKey k2 (setKey k v kvs) = lookupKey k2 kvs := by
  intro kvs
  induction kvs with
  | nil => rfl
  | cons kv rest ih =>
    by_cases hk : kv.1 = k
    · have hkn : k ≠ k2 := fun h => hne (h.symm)
      simp only [setKey, hk, if_pos]
      simp [lookupKey, hk, hkn]
    · simp only [setKey, hk, if_neg, ite_false]
      by_cases hk2 : kv.1 = k2
      · simp [lookupKey, hk2]
      · simp only [lookupKey, hk2, if_neg, ite_false]
        exact ih

/-! ### Path-prefix lemmas -/

theorem pathPref_nil (q : List String) : pathPref [] q = true := rfl

theorem pathPref_refl : ∀ p : List String, pathPref p p = true := by
  intro p
  induction p with
  | nil => rfl
  | cons a as ih => simp [pathPref, ih]

theorem sepPaths_irrefl (p : List String) : ¬ sepPaths p p := by
  intro h
  have := h.1
  rw [pathPref_refl] at this
  cases this

theorem sepPaths_ne {a b : String} (h : sepPaths (splitPath a) (splitPath b)) : a ≠ b := by
  intro hab
  rw [hab] at h
  exact sepPaths_irrefl _ h

theorem sepPaths_symm {p q : List String} (h : sepPaths p q) : sepPaths q p :=
  ⟨h.2, h.1⟩

/-! ### Unfolding lemmas for the path walk -/

theorem lookupPath_nil (j : Json) : lookupPath j [] = some j := rfl

theorem lookupPath_obj (kvs : List (String × Json)) (k : String) (rest : List String) :
    lookupPath (Json.obj kvs) (k :: rest) =
      (match lookupKey k kvs with
       | some c => lookupPath c rest
       | none => none) := rfl

theorem lookupPath_str (s : String) (k : String) (rest : List String) :
    lookupPath (Json.str s) (k :: rest) = none := rfl

theorem lookupPath_num (n : Int) (k : String) (rest : List String) :
    lookupPath (Json.num n) (k :: rest) = none := rfl

theorem pathPref_cons (a b : String) (as bs : List String) :
    pathPref (a :: as) (b :: bs) = if a = b then pathPref as bs else false := rfl

theorem pathPref_cons_nil (a : String) (as : List String) :
    pathPref (a :: as) [] = false := rfl

theorem updatePath_none (v : String) (cur : Json) : updatePath v cur [] = none := rfl

theorem updatePath_single (v : String) (cur : Json) (k : String) :
    updatePath v cur [k] = updateFinal v cur k := rfl

theorem updatePath_obj_cons2 (v k k2 : String) (rest : List String)
    (kvs : List (String × Json)) :
    updatePath v (Json.obj kvs) (k :: k2 :: rest) =
      (match lookupKey k kvs with
       | some child =>
         (match updatePath v child (k2 :: rest) with
          | some (b, child2) => some (b, Json.obj (setKey k child2 kvs))
          | none => none)
       | none => some (false, Json.obj kvs)) := rfl

theorem updatePath_str_cons2 (v k k2 : String) (rest : List String) (s : String) :
    updatePath v (Json.str s) (k :: k2 :: rest) =
      (if hasSub k.toList s.toList then none else some (false, Json.str s)) := rfl

theorem updatePath_num_cons2 (v k k2 : String) (rest : List String) (n : Int) :
    updatePath v (Json.num n) (k :: k2 :: rest) = none := rfl

theorem updateFinal_obj (v : String) (kvs : List (String × Json)) (k : String) :
    updateFinal v (Json.obj kvs) k =
      (match lookupKey k kvs with
       | some old =>
         if pyEqStr old v then some (false, Json.obj kvs)
         else some (true, Json.obj (setKey k (Json.str v) kvs))
       | none => some (false, Json.obj kvs)) := rfl

theorem updateFinal_str (v : String) (s : String) (k : String) :
    updateFinal v (Json.str s) k = none := rfl

theorem updateFinal_num (v : String) (n : Int) (k : String) :
    updateFinal v (Json.num n) k = none := rfl

/-! ### Core lemmas about `update_metadata_value`'s path walk -/

theorem bool_not_true_eq_false {b : Bool} (h : ¬ b = true) : b = false := by
  cases b
  · rfl
  · exact absurd rfl h

theorem updatePath_of_lookup_eq :
    ∀ (ks : List String) (cur old : Json) (v : String), ks ≠ [] →
      lookupPath cur ks = some old → pyEqStr old v = true →
      updatePath v cur ks = some (false, cur) := by
  intro ks
  induction ks with
  | nil => intro cur old v hne; exact absurd rfl hne
  | cons k rest ih =>
    intro cur old v _ hl hpe
    cases rest with
    | nil =>
      cases cur with
      | str s => rw [lookupPath_str] at hl; cases hl
      | num n => rw [lookupPath_num] at hl; cases hl
      | obj kvs =>
        rw [lookupPath_obj] at hl
        cases hlk : lookupKey k kvs with
        | none => simp only [hlk] at hl; cases hl
        | some c =>
          simp only [hlk, lookupPath_nil, Option.some.injEq] at hl
          subst hl
          rw [updatePath_single, updateFinal_obj]
          simp only [hlk, hpe, if_pos]
    | cons k2 rest2 =>
      cases cur with
      | str s => rw [lookupPath_str] at hl; cases hl
      | num n => rw [lookupPath_num] at hl; cases hl
      | obj kvs =>
        rw [lookupPath_obj] at hl
        cases hlk : lookupKey k kvs with
        | none => simp only [hlk] at hl; cases hl
        | some child =>
          simp only [hlk] at hl
          have hrec := ih child old v (by simp) hl hpe
          rw [updatePath_obj_cons2]
          simp only [hlk, hrec, setKey_of_lookup_self k child kvs hlk]

theorem updatePath_of_lookup_ne :
    ∀ (ks : List String) (cur old : Json) (v : String), ks ≠ [] →
      lookupPath cur ks = some old → pyEqStr old v = false →
      ∃ cur2, updatePath v cur ks = some (true, cur2) ∧
        lookupPath cur2 ks = some (Json.str v) := by
  intro ks
  induction ks with
  | nil => intro cur old v hne; exact absurd rfl hne
  | cons k rest ih =>
    intro cur old v _ hl hpe
    cases rest with
    | nil =>
      cases cur with
      | str s => rw [lookupPath_str] at hl; cases hl
      | num n => rw [lookupPath_num] at hl; cases hl
      | obj kvs =>
        rw [lookupPath_obj] at hl
        cases hlk : lookupKey k kvs with
        | none => simp only [hlk] at hl; cases hl
        | some c =>
          simp only [hlk, lookupPath_nil, Option.some.injEq] at hl
          subst hl
          refine ⟨Json.obj (setKey k (Json.str v) kvs), ?_, ?_⟩
          · rw [updatePath_single, updateFinal_obj]
            simp only [hlk, hpe]
            rfl
          · rw [lookupPath_obj]
            rw [lookupKey_setKey_self k (Json.str v) kvs (by rw [hlk]; rfl)]
            rfl
    | cons k2 rest2 =>
      cases cur with
      | str s => rw [lookupPath_str] at hl; cases hl
      | num n => rw [lookupPath_num] at hl; cases hl
      | obj kvs =>
        rw [lookupPath_obj] at hl
        cases hlk : lookupKey k kvs with
        | none => simp only [hlk] at hl; cases hl
        | some child =>
          simp only [hlk] at hl
          obtain ⟨child2, h1, h2⟩ := ih child old v (by simp) hl hpe
          refine ⟨Json.obj (setKey k child2 kvs), ?_, ?_⟩
          · rw [updatePath_obj_cons2]
            simp only [hlk, h1]
          · rw [lookupPath_obj]
            rw [lookupKey_setKey_self k child2 kvs (by rw [hlk]; rfl)]
            exact h2

theorem updatePath_false_eq :
    ∀ (ks : List String) (cur cur2 : Json) (v : String),
      updatePath v cur ks = some (false, cur2) → cur2 = cur := by
  intro ks
  induction ks with
  | nil => intro cur cur2 v h; rw [updatePath_none] at h; cases h
  | cons k rest ih =>
    intro cur cur2 v h
    cases rest with
    | nil =>
      cases cur with
      | str s => rw [updatePath_single, updateFinal_str] at h; cases h
      | num n => rw [updatePath_single, updateFinal_num] at h; cases h
      | obj kvs =>
        rw [updatePath_single, updateFinal_obj] at h
        cases hlk : lookupKey k kvs with
        | none =>
          simp only [hlk, Option.some.injEq, Prod.mk.injEq] at h
          exact h.2.symm
        | some old =>
          simp only [hlk] at h
          by_cases hpe : pyEqStr old v = true
          · rw [if_pos hpe, Option.some.injEq, Prod.mk.injEq] at h
            exact h.2.symm
          · rw [if_neg hpe, Option.some.injEq, Prod.mk.injEq] at h
            cases h.1
    | cons k2 rest2 =>
      cases cur with
      | num n => rw [updatePath_num_cons2] at h; cases h
      | str s =>
        rw [updatePath_str_cons2] at h
        by_cases hsb : hasSub k.toList s.toList = true
        · rw [if_pos hsb] at h; cases h
        · rw [if_neg hsb, Option.some.injEq, Prod.mk.injEq] at h
          exact h.2.symm
      | obj kvs =>
        rw [updatePath_obj_cons2] at h
        cases hlk : lookupKey k kvs with
        | none =>
          simp only [hlk, Option.some.injEq, Prod.mk.injEq] at h
          exact h.2.symm
        | some child =>
          simp only [hlk] at h
          cases hup : updatePath v child (k2 :: rest2) with
          | none => simp only [hup] at h; cases h
          | some bc =>
            obtain ⟨b, child2⟩ := bc
            simp only [hup, Option.some.injEq, Prod.mk.injEq] at h
            obtain ⟨hb, hc⟩ := h
            subst hb
            have hcc := ih child child2 v hup
            rw [← hc, hcc, setKey_of_lookup_self k child kvs hlk]

theorem updatePath_true_spec :
    ∀ (ks : List String) (cur cur2 : Json) (v : String),
      updatePath v cur ks = some (true, cur2) →
      ∃ old, lookupPath cur ks = some old ∧ pyEqStr old v = false ∧
        lookupPath cur2 ks = some (Json.str v) := by
  intro ks
  induction ks with
  | nil => intro cur cur2 v h; rw [updatePath_none] at h; cases h
  | cons k rest ih =>
    intro cur cur2 v h
    cases rest with
    | nil =>
      cases cur with
      | str s => rw [updatePath_single, updateFinal_str] at h; cases h
      | num n => rw [updatePath_single, updateFinal_num] at h; cases h
      | obj kvs =>
        rw [updatePath_single, updateFinal_obj] at h
        cases hlk : lookupKey k kvs with
        | none =>
          simp only [hlk, Option.some.injEq, Prod.mk.injEq] at h
          cases h.1
        | some old =>
          simp only [hlk] at h
          by_cases hpe : pyEqStr old v = true
          · rw [if_pos hpe, Option.some.injEq, Prod.mk.injEq] at h
            cases h.1
          · rw [if_neg hpe, Option.some.injEq, Prod.mk.injEq] at h
            refine ⟨old, ?_, bool_not_true_eq_false hpe, ?_⟩
            · rw [lookupPath_obj]; simp only [hlk, lookupPath_nil]
            · rw [← h.2, lookupPath_obj]
              rw [lookupKey_setKey_self k (Json.str v) kvs (by rw [hlk]; rfl)]
              rfl
    | cons k2 rest2 =>
      cases cur with
      | num n => rw [updatePath_num_cons2] at h; cases h
      | str s =>
        rw [updatePath_str_cons2] at h
        by_cases hsb : hasSub k.toList s.toList = true
        · rw [if_pos hsb] at h; cases h
        · rw [if_neg hsb, Option.some.injEq, Prod.mk.injEq] at h
          cases h.1
      | obj kvs =>
        rw [updatePath_obj_cons2] at h
        cases hlk : lookupKey k kvs with
        | none =>
          simp only [hlk, Option.some.injEq, Prod.mk.injEq] at h
          cases h.1
        | some child =>
          simp only [hlk] at h
          cases hup : updatePath v child (k2 :: rest2) with
          | none => simp only [hup] at h; cases h
          | some bc =>
            obtain ⟨b, child2⟩ := bc
            simp only [hup, Option.some.injEq, Prod.mk.injEq] at h
            obtain ⟨hb, hc⟩ := h
            subst hb
            obtain ⟨old, ho1, ho2, ho3⟩ := ih child child2 v hup
            refine ⟨old, ?_, ho2, ?_⟩
            · rw [lookupPath_obj]; simp only [hlk, ho1]
            · rw [← hc, lookupPath_obj]
              rw [lookupKey_setKey_self k child2 kvs (by rw [hlk]; rfl)]
              exact ho3

theorem updatePath_frame :
    ∀ (ks : List String) (cur cur2 : Json) (b : Bool) (v : String),
      updatePath v cur ks = some (b, cur2) →
      ∀ p, sepPaths p ks → lookupPath cur2 p = lookupPath cur p := by
  intro ks
  induction ks with
  | nil => intro cur cur2 b v h; rw [updatePath_none] at h; cases h
  | cons k rest ih =>
    intro cur cur2 b v h p hsep
    obtain ⟨hs1, hs2⟩ := hsep
    cases p with
    | nil => rw [pathPref_nil] at hs1; cases hs1
    | cons kp ps =>
      cases rest with
      | nil =>
        have hkpne : kp ≠ k := by
          intro hkk
          subst hkk
          rw [pathPref_cons, if_pos rfl, pathPref_nil] at hs2
          cases hs2
        cases cur with
        | str s => rw [updatePath_single, updateFinal_str] at h; cases h
        | num n => rw [updatePath_single, updateFinal_num] at h; cases h
        | obj kvs =>
          rw [updatePath_single, updateFinal_obj] at h
          cases hlk : lookupKey k kvs with
          | none =>
            simp only [hlk, Option.some.injEq, Prod.mk.injEq] at h
            rw [← h.2]
          | some old =>
            simp only [hlk] at h
            by_cases hpe : pyEqStr old v = true
            · rw [if_pos hpe, Option.some.injEq, Prod.mk.injEq] at h
              rw [← h.2]
            · rw [if_neg hpe, Option.some.injEq, Prod.mk.injEq] at h
              rw [← h.2]
              rw [lookupPath_obj, lookupPath_obj,
                lookupKey_setKey_ne k kp (Json.str v) hkpne kvs]
      | cons k2 rest2 =>
        cases cur with
        | num n => rw [updatePath_num_cons2] at h; cases h
        | str s =>
          rw [updatePath_str_cons2] at h
          by_cases hsb : hasSub k.toList s.toList = true
          · rw [if_pos hsb] at h; cases h
          · rw [if_neg hsb, Option.some.injEq, Prod.mk.injEq] at h
            rw [← h.2]
        | obj kvs =>
          rw [updatePath_obj_cons2] at h
          cases hlk : lookupKey k kvs with
          | none =>
            simp only [hlk, Option.some.injEq, Prod.mk.injEq] at h
            rw [← h.2]
          | some child =>
            simp only [hlk] at h
            cases hup : updatePath v child (k2 :: rest2) with
            | none => simp only [hup] at h; cases h
            | some bc =>
              obtain ⟨b2, child2⟩ := bc
              simp only [hup, Option.some.injEq, Prod.mk.injEq] at h
              rw [← h.2]
              by_cases hkp : kp = k
              · subst hkp
                rw [pathPref_cons, if_pos rfl] at hs1
                rw [pathPref_cons, if_pos rfl] at hs2
                rw [lookupPath_obj, lookupPath_obj, hlk,
                  lookupKey_setKey_self kp child2 kvs (by rw [hlk]; rfl)]
                exact ih child child2 b2 v hup ps ⟨hs1, hs2⟩
              · rw [lookupPath_obj, lookupPath_obj,
                  lookupKey_setKey_ne k kp child2 hkp kvs]

/-! ### Split-path basics -/

theorem splitCharsOn_ne_nil (c : Char) : ∀ l : List Char, splitCharsOn c l ≠ [] := by
  intro l
  cases l with
  | nil => simp [splitCharsOn]
  | cons a as =>
    unfold splitCharsOn
    by_cases h : a = c
    · rw [if_pos h]; simp
    · rw [if_neg h]
      cases hs : splitCharsOn c as with
      | nil => simp
      | cons g gs => simp

theorem splitPath_ne_nil (s : String) : splitPath s ≠ [] := by
  unfold splitPath
  intro h
  rw [List.map_eq_nil_iff] at h
  exact splitCharsOn_ne_nil '.' s.toList h

/-! ### Lifting the path-walk lemmas through `main`'s loops -/

theorem update_metadata_value_frame (m m2 : Json) (b : Bool) (kp v : String)
    (h : update_metadata_value m kp v = some (b, m2))
    (p : List String) (hsep : sepPaths p (splitPath kp)) :
    lookupPath m2 p = lookupPath m p :=
  updatePath_frame (splitPath kp) m m2 b v h p hsep

theorem applyKey_inv (n v : String) (acc : Json × List String) (kp : String)
    (acc2 : Json × List String) (h : applyKey n v acc kp = some acc2) :
    (∃ m2, update_metadata_value acc.1 kp v = some (true, m2) ∧
      acc2 = (m2, acc.2 ++ [changeLine n kp v])) ∨
    (update_metadata_value acc.1 kp v = some (false, acc.1) ∧ acc2 = (acc.1, acc.2)) := by
  unfold applyKey at h
  cases hu : update_metadata_value acc.1 kp v with
  | none => rw [hu] at h; cases h
  | some bm =>
    obtain ⟨b, m2⟩ := bm
    cases b with
    | true =>
      simp only [hu] at h
      cases h
      exact Or.inl ⟨m2, rfl, rfl⟩
    | false =>
      simp only [hu] at h
      cases h
      have hm : m2 = acc.1 := updatePath_false_eq (splitPath kp) acc.1 m2 v hu
      subst hm
      exact Or.inr ⟨rfl, rfl⟩

theorem applyKey_frame (n v : String) (acc acc2 : Json × List String) (kp : String)
    (h : applyKey n v acc kp = some acc2)
    (p : List String) (hsep : sepPaths p (splitPath kp)) :
    lookupPath acc2.1 p = lookupPath acc.1 p := by
  rcases applyKey_inv n v acc kp acc2 h with ⟨m2, hu, hacc⟩ | ⟨hu, hacc⟩
  · rw [hacc]
    exact update_metadata_value_frame acc.1 m2 true kp v hu p hsep
  · rw [hacc]

theorem applyKeyList_frame (n v : String) :
    ∀ (kps : List String) (acc acc2 : Json × List String),
      applyKeyList n v kps acc = some acc2 →
      ∀ p, (∀ kp ∈ kps, sepPaths p (splitPath kp)) →
        lookupPath acc2.1 p = lookupPath acc.1 p := by
  intro kps
  induction kps with
  | nil =>
    intro acc acc2 h p _
    cases h
    rfl
  | cons kp rest ih =>
    intro acc acc2 h p hsep
    unfold applyKeyList at h
    cases ha : applyKey n v acc kp with
    | none => rw [ha] at h; cases h
    | some accm =>
      rw [ha] at h
      have h1 := applyKey_frame n v acc accm kp ha p (hsep kp (by simp))
      have h2 := ih accm acc2 h p (fun q hq => hsep q (by simp [hq]))
      rw [h2, h1]

theorem applyComponentKeys_eq_list (n v : String) (mk : MetadataKey)
    (acc : Json × List String) :
    applyComponentKeys n v mk acc = applyKeyList n v (keyPathsOf mk) acc := by
  cases mk with
  | single kp =>
    show applyKey n v acc kp = applyKeyList n v [kp] acc
    cases h : applyKey n v acc kp with
    | none => simp [applyKeyList, h]
    | some acc2 => simp [applyKeyList, h]
  | multi kps => rfl

theorem processComponent_frame (fetch : String → FetchResult)
    (acc acc2 : Json × List String) (c : String × ComponentConfig)
    (h : processComponent fetch acc c = some acc2)
    (p : List String)
    (hsep : ∀ kp ∈ keyPathsOf c.2.metadata_key, sepPaths p (splitPath kp)) :
    lookupPath acc2.1 p = lookupPath acc.1 p := by
  unfold processComponent at h
  cases hg : get_github_release_info (fetch c.1) (checkTagFormatFor c.1) with
  | none =>
    rw [hg] at h
    cases h
    rfl
  | some v =>
    simp only [hg] at h
    by_cases ht : pyTruthy v = true
    · rw [if_pos ht, applyComponentKeys_eq_list] at h
      exact applyKeyList_frame c.1 v (keyPathsOf c.2.metadata_key) acc acc2 h p hsep
    · rw [if_neg ht] at h
      cases h
      rfl

theorem collectPairs_cons (c : String × ComponentConfig)
    (cs : List (String × ComponentConfig)) :
    collectPairs (c :: cs) =
      (keyPathsOf c.2.metadata_key).map (fun k => (c.1, k)) ++ collectPairs cs := rfl

theorem runComponents_frame (fetch : String → FetchResult) :
    ∀ (comps : List (String × ComponentConfig)) (acc acc2 : Json × List String),
      runComponents fetch comps acc = some acc2 →
      ∀ p, (∀ pr ∈ collectPairs comps, sepPaths p (splitPath pr.2)) →
        lookupPath acc2.1 p = lookupPath acc.1 p := by
  intro comps
  induction comps with
  | nil =>
    intro acc acc2 h p _
    cases h
    rfl
  | cons c cs ih =>
    intro acc acc2 h p hsep
    unfold runComponents at h
    cases hp : processComponent fetch acc c with
    | none => rw [hp] at h; cases h
    | some accm =>
      rw [hp] at h
      have hhead : ∀ kp ∈ keyPathsOf c.2.metadata_key, sepPaths p (splitPath kp) := by
        intro kp hkp
        have : ((c.1, kp) : String × String) ∈ collectPairs (c :: cs) := by
          rw [collectPairs_cons, List.mem_append]
          exact Or.inl (List.mem_map.mpr ⟨kp, hkp, rfl⟩)
        exact hsep (c.1, kp) this
      have htail : ∀ pr ∈ collectPairs cs, sepPaths p (splitPath pr.2) := by
        intro pr hpr
        refine hsep pr ?_
        rw [collectPairs_cons, List.mem_append]
        exact Or.inr hpr
      have h1 := processComponent_frame fetch acc accm c hp p hhead
      have h2 := ih accm acc2 h p htail
      rw [h2, h1]

/-! ### The change record: one line per value actually changed, in order -/

theorem pyEqStr_false_ne {old : Json} {v : String} (h : pyEqStr old v = false) :
    old ≠ Json.str v := by
  intro heq
  subst heq
  simp [pyEqStr] at h

theorem strAt_eq_of_lookup {m : Json} {kp s : String}
    (h : lookupPath m (splitPath kp) = some (Json.str s)) : strAt m kp = s := by
  unfold strAt
  rw [h]

theorem applyKeyList_spec (n v : String) :
    ∀ (kps : List String) (acc acc2 : Json × List String),
      List.Pairwise (fun a b => sepPaths (splitPath a) (splitPath b)) kps →
      applyKeyList n v kps acc = some acc2 →
      ∃ ks : List String,
        acc2.2 = acc.2 ++ ks.map (fun kp => changeLine n kp v) ∧
        List.Sublist ks kps ∧
        (∀ kp ∈ kps,
          (kp ∈ ks ↔ lookupPath acc2.1 (splitPath kp) ≠ lookupPath acc.1 (splitPath kp))) ∧
        (∀ kp ∈ ks, lookupPath acc2.1 (splitPath kp) = some (Json.str v)) := by
  intro kps
  induction kps with
  | nil =>
    intro acc acc2 _ h
    cases h
    exact ⟨[], by simp, List.nil_sublist _, by simp, by simp⟩
  | cons kp rest ih =>
    intro acc acc2 hpw h
    obtain ⟨hp1, hp2⟩ := List.pairwise_cons.mp hpw
    unfold applyKeyList at h
    cases ha : applyKey n v acc kp with
    | none => rw [ha] at h; cases h
    | some accm =>
      rw [ha] at h
      obtain ⟨ks, hch, hsub, hiff, hvals⟩ := ih accm acc2 hp2 h
      have htf : lookupPath acc2.1 (splitPath kp) = lookupPath accm.1 (splitPath kp) :=
        applyKeyList_frame n v rest accm acc2 h (splitPath kp) (fun q hq => hp1 q hq)
      rcases applyKey_inv n v acc kp accm ha with ⟨m2, hu, hacc⟩ | ⟨hu, hacc⟩
      · obtain ⟨old, ho1, ho2, ho3⟩ := updatePath_true_spec (splitPath kp) acc.1 m2 v hu
        have hacc1 : accm.1 = m2 := by rw [hacc]
        have hfin : lookupPath acc2.1 (splitPath kp) = some (Json.str v) := by
          rw [htf, hacc1]; exact ho3
        refine ⟨kp :: ks, ?_, List.Sublist.cons₂ kp hsub, ?_, ?_⟩
        · rw [hch, hacc]
          simp [List.append_assoc]
        · intro q hq
          rcases List.mem_cons.mp hq with hqkp | hqrest
          · subst hqkp
            constructor
            · intro _
              rw [hfin, ho1]
              intro hcon
              exact pyEqStr_false_ne ho2 (Option.some.inj hcon).symm
            · intro _
              exact List.mem_cons_self q ks
          · have hqne : kp ≠ q := sepPaths_ne (hp1 q hqrest)
            have hfr : lookupPath accm.1 (splitPath q) = lookupPath acc.1 (splitPath q) :=
              applyKey_frame n v acc accm kp ha (splitPath q) (sepPaths_symm (hp1 q hqrest))
            have hmem : (q ∈ kp :: ks) ↔ q ∈ ks := by
              constructor
              · intro hm
                rcases List.mem_cons.mp hm with he | hm2
                · exact absurd he.symm hqne
                · exact hm2
              · intro hm
                exact List.mem_cons_of_mem kp hm
            rw [hmem, hiff q hqrest, hfr]
        · intro q hqks
          rcases List.mem_cons.mp hqks with he | hm2
          · subst he
            exact hfin
          · exact hvals q hm2
      · have hacc1 : accm.1 = acc.1 := by rw [hacc]
        have hacc2 : accm.2 = acc.2 := by rw [hacc]
        have hkpnotin : kp ∉ ks := by
          intro hin
          exact sepPaths_irrefl (splitPath kp) (hp1 kp (hsub.subset hin))
        refine ⟨ks, ?_, List.Sublist.cons kp hsub, ?_, hvals⟩
        · rw [hch, hacc2]
        · intro q hq
          rcases List.mem_cons.mp hq with he | hqrest
          · subst he
            constructor
            · intro hin
              exact absurd hin hkpnotin
            · intro hne
              exfalso
              apply hne
              rw [htf, hacc1]
          · have hfr : lookupPath accm.1 (splitPath q) = lookupPath acc.1 (splitPath q) := by
              rw [hacc1]
            rw [hiff q hqrest, hfr]

theorem processComponent_spec (fetch : String → FetchResult)
    (acc acc2 : Json × List String) (c : String × ComponentConfig)
    (hpw : List.Pairwise (fun a b => sepPaths (splitPath a) (splitPath b))
      (keyPathsOf c.2.metadata_key))
    (h : processComponent fetch acc c = some acc2) :
    ∃ (v : String) (ks : List String),
      acc2.2 = acc.2 ++ ks.map (fun kp => changeLine c.1 kp v) ∧
      List.Sublist ks (keyPathsOf c.2.metadata_key) ∧
      (∀ kp ∈ keyPathsOf c.2.metadata_key,
        (kp ∈ ks ↔ lookupPath acc2.1 (splitPath kp) ≠ lookupPath acc.1 (splitPath kp))) ∧
      (∀ kp ∈ ks, lookupPath acc2.1 (splitPath kp) = some (Json.str v)) := by
  unfold processComponent at h
  cases hg : get_github_release_info (fetch c.1) (checkTagFormatFor c.1) with
  | none =>
    rw [hg] at h
    cases h
    exact ⟨"", [], by simp, List.nil_sublist _, by simp, by simp⟩
  | some v =>
    simp only [hg] at h
    by_cases ht : pyTruthy v = true
    · rw [if_pos ht, applyComponentKeys_eq_list] at h
      obtain ⟨ks, h1, h2, h3, h4⟩ :=
        applyKeyList_spec c.1 v (keyPathsOf c.2.metadata_key) acc acc2 hpw h
      exact ⟨v, ks, h1, h2, h3, h4⟩
    · rw [if_neg ht] at h
      cases h
      exact ⟨"", [], by simp, List.nil_sublist _, by simp, by simp⟩

theorem runComponents_spec (fetch : String → FetchResult) :
    ∀ (comps : List (String × ComponentConfig)) (acc acc2 : Json × List String),
      List.Pairwise (fun a b => sepPaths (splitPath a.2) (splitPath b.2)) (collectPairs comps) →
      runComponents fetch comps acc = some acc2 →
      ∃ evs : List (String × String),
        acc2.2 = acc.2 ++ evs.map (fun pr => changeLine pr.1 pr.2 (strAt acc2.1 pr.2)) ∧
        List.Sublist evs (collectPairs comps) ∧
        (∀ pr ∈ collectPairs comps,
          (pr ∈ evs ↔ lookupPath acc2.1 (splitPath pr.2) ≠ lookupPath acc.1 (splitPath pr.2))) := by
  intro comps
  induction comps with
  | nil =>
    intro acc acc2 _ h
    cases h
    exact ⟨[], by simp, List.nil_sublist _, by simp⟩
  | cons c cs ih =>
    intro acc acc2 hpw h
    rw [collectPairs_cons] at hpw
    obtain ⟨pwHeadPairs, pwTail, hcross⟩ := List.pairwise_append.mp hpw
    unfold runComponents at h
    cases hp : processComponent fetch acc c with
    | none => rw [hp] at h; cases h
    | some accm =>
      rw [hp] at h
      have pwHead : List.Pairwise (fun a b => sepPaths (splitPath a) (splitPath b))
          (keyPathsOf c.2.metadata_key) := by
        have h2 := List.pairwise_map.mp pwHeadPairs
        exact h2
      obtain ⟨v, ks, hch1, hsub1, hiff1, hvals1⟩ := processComponent_spec fetch acc accm c pwHead hp
      obtain ⟨evs2, hch2, hsub2, hiff2⟩ := ih accm acc2 pwTail h
      have htailframe : ∀ kp ∈ keyPathsOf c.2.metadata_key,
          lookupPath acc2.1 (splitPath kp) = lookupPath accm.1 (splitPath kp) := by
        intro kp hkp
        refine runComponents_frame fetch cs accm acc2 h (splitPath kp) ?_
        intro pr hpr
        exact hcross (c.1, kp) (List.mem_map.mpr ⟨kp, hkp, rfl⟩) pr hpr
      have hheadframe : ∀ pr ∈ collectPairs cs,
          lookupPath accm.1 (splitPath pr.2) = lookupPath acc.1 (splitPath pr.2) := by
        intro pr hpr
        refine processComponent_frame fetch acc accm c hp (splitPath pr.2) ?_
        intro kp hkp
        exact sepPaths_symm (hcross (c.1, kp) (List.mem_map.mpr ⟨kp, hkp, rfl⟩) pr hpr)
      have hdisj : ∀ pr, pr ∈ (keyPathsOf c.2.metadata_key).map (fun k => (c.1, k)) →
          pr ∈ collectPairs cs → False := by
        intro pr h1 h2
        exact sepPaths_irrefl _ (hcross pr h1 pr h2)
      refine ⟨ks.map (fun k => (c.1, k)) ++ evs2, ?_, ?_, ?_⟩
      · have hmap : ks.map (fun kp => changeLine c.1 kp v)
            = (ks.map (fun k => (c.1, k))).map
                (fun pr => changeLine pr.1 pr.2 (strAt acc2.1 pr.2)) := by
          rw [List.map_map]
          apply List.map_congr_left
          intro kp hkp
          simp only [Function.comp_apply]
          have hv : lookupPath acc2.1 (splitPath kp) = some (Json.str v) := by
            rw [htailframe kp (hsub1.subset hkp)]
            exact hvals1 kp hkp
          show changeLine c.1 kp v = changeLine c.1 kp (strAt acc2.1 kp)
          rw [strAt_eq_of_lookup hv]
        rw [hch2, hch1, hmap, List.map_append, List.append_assoc]
      · exact List.Sublist.append (List.Sublist.map _ hsub1) hsub2
      · intro pr hpr
        rw [collectPairs_cons, List.mem_append] at hpr
        rcases hpr with hh | htl
        · obtain ⟨kp, hkp, hpr_eq⟩ := List.mem_map.mp hh
          cases hpr_eq
          show (((c.1, kp) : String × String) ∈ ks.map (fun k => (c.1, k)) ++ evs2) ↔
            lookupPath acc2.1 (splitPath kp) ≠ lookupPath acc.1 (splitPath kp)
          have hnotin2 : (((c.1, kp) : String × String) ∉ evs2) := by
            intro hin
            exact hdisj (c.1, kp) hh (hsub2.subset hin)
          have hmemiff : (((c.1, kp) : String × String) ∈ ks.map (fun k => (c.1, k)) ++ evs2) ↔
              kp ∈ ks := by
            rw [List.mem_append]
            constructor
            · intro hc
              rcases hc with hc1 | hc2
              · obtain ⟨k2, hk2, heq⟩ := List.mem_map.mp hc1
                injection heq with h1 h2
                rw [← h2]
                exact hk2
              · exact absurd hc2 hnotin2
            · intro hks
              exact Or.inl (List.mem_map.mpr ⟨kp, hks, rfl⟩)
          rw [hmemiff, hiff1 kp hkp, htailframe kp hkp]
        · have hnotin1 : pr ∉ ks.map (fun k => (c.1, k)) := by
            intro hin
            have hmem : pr ∈ (keyPathsOf c.2.metadata_key).map (fun k => (c.1, k)) := by
              obtain ⟨k2, hk2, heq⟩ := List.mem_map.mp hin
              exact List.mem_map.mpr ⟨k2, hsub1.subset hk2, heq⟩
            exact hdisj pr hmem htl
          have hmemiff : (pr ∈ ks.map (fun k => (c.1, k)) ++ evs2) ↔ pr ∈ evs2 := by
            rw [List.mem_append]
            constructor
            · intro hc
              rcases hc with hc1 | hc2
              · exact absurd hc1 hnotin1
              · exact hc2
            · exact Or.inr
          rw [hmemiff, hiff2 pr htl, hheadframe pr htl]

/-! ### Missing keys along an all-object path -/

theorem missingOnObjPath_nil (j : Json) : missingOnObjPath j [] = false := rfl

theorem missingOnObjPath_obj (kvs : List (String × Json)) (k : String) (rest : List String) :
    missingOnObjPath (Json.obj kvs) (k :: rest) =
      (match lookupKey k kvs with
       | some c => missingOnObjPath c rest
       | none => true) := rfl

theorem missingOnObjPath_str (s : String) (k : String) (rest : List String) :
    missingOnObjPath (Json.str s) (k :: rest) = false := rfl

theorem missingOnObjPath_num (n : Int) (k : String) (rest : List String) :
    missingOnObjPath (Json.num n) (k :: rest) = false := rfl

theorem updatePath_of_missing :
    ∀ (ks : List String) (cur : Json) (v : String),
      missingOnObjPath cur ks = true → updatePath v cur ks = some (false, cur) := by
  intro ks
  induction ks with
  | nil => intro cur v h; rw [missingOnObjPath_nil] at h; cases h
  | cons k rest ih =>
    intro cur v h
    cases cur with
    | str s => rw [missingOnObjPath_str] at h; cases h
    | num n => rw [missingOnObjPath_num] at h; cases h
    | obj kvs =>
      rw [missingOnObjPath_obj] at h
      cases hlk : lookupKey k kvs with
      | none =>
        cases rest with
        | nil =>
          rw [updatePath_single, updateFinal_obj]
          simp only [hlk]
        | cons k2 rest2 =>
          rw [updatePath_obj_cons2]
          simp only [hlk]
      | some c =>
        simp only [hlk] at h
        cases rest with
        | nil => rw [missingOnObjPath_nil] at h; cases h
        | cons k2 rest2 =>
          have hrec := ih c v h
          rw [updatePath_obj_cons2]
          simp only [hlk, hrec, setKey_of_lookup_self k c kvs hlk]

/-! ### Inverting `runMain` -/

theorem runMain_finished_inv (m : Json) (fetch : String → FetchResult)
    (m2 : Json) (changes : List String)
    (h : runMain (LoadResult.ok m) fetch = MainResult.finished m2 changes) :
    runComponents fetch COMPONENTS (m, ([] : List String)) = some (m2, changes) := by
  unfold runMain at h
  cases hr : runComponents fetch COMPONENTS (m, ([] : List String)) with
  | none => simp only [hr] at h; cases h
  | some acc =>
    obtain ⟨a, b⟩ := acc
    simp only [hr] at h
    injection h with h1 h2
    rw [← h1, ← h2]

/-! ### The release loop picks the first accepted release -/

theorem findRelease_cons (n : Nat) (ctf : Option String) (r : Release) (rs : List Release) :
    findRelease n ctf (r :: rs) =
      (match releaseAccepted n ctf r with
       | some v => some v
       | none => findRelease n ctf rs) := rfl

theorem findRelease_first (n : Nat) (ctf : Option String) :
    ∀ (pre : List Release) (r : Release) (post : List Release) (v : String),
      (∀ r2 ∈ pre, releaseAccepted n ctf r2 = none) →
      releaseAccepted n ctf r = some v →
      findRelease n ctf (pre ++ r :: post) = some v := by
  intro pre
  induction pre with
  | nil =>
    intro r post v _ hr
    rw [List.nil_append, findRelease_cons]
    simp only [hr]
  | cons r0 rest ih =>
    intro r post v hpre hr
    rw [List.cons_append, findRelease_cons]
    have h0 : releaseAccepted n ctf r0 = none := hpre r0 (by simp)
    simp only [h0]
    exact ih r post v (fun r2 h2 => hpre r2 (by simp [h2])) hr

theorem findRelease_mem_spec (n : Nat) (ctf : Option String) :
    ∀ (rs : List Release) (v : String), findRelease n ctf rs = some v →
      ∃ r, r ∈ rs ∧ releaseAccepted n ctf r = some v := by
  intro rs
  induction rs with
  | nil => intro v h; cases h
  | cons r rest ih =>
    intro v h
    rw [findRelease_cons] at h
    cases hacc : releaseAccepted n ctf r with
    | some v0 =>
      simp only [hacc] at h
      cases h
      exact ⟨r, by simp, hacc⟩
    | none =>
      simp only [hacc] at h
      obtain ⟨r2, hm, ha⟩ := ih v h
      exact ⟨r2, by simp [hm], ha⟩

theorem releaseAccepted_not_prerelease (n : Nat) (ctf : Option String)
    (r : Release) (v : String) (hn : 1 < n)
    (h : releaseAccepted n ctf r = some v) : r.prerelease = false := by
  unfold releaseAccepted at h
  by_cases hb : (1 < n ∧ r.prerelease = true)
  · rw [if_pos hb] at h
    cases h
  · cases hpre : r.prerelease with
    | false => rfl
    | true => exact absurd ⟨hn, hpre⟩ hb

theorem releaseAccepted_some_inv (n : Nat) (ctf : Option String)
    (r : Release) (v : String) (h : releaseAccepted n ctf r = some v) :
    v = cleanTag r.tag_name ∧ versionOk ctf (cleanTag r.tag_name) = true := by
  unfold releaseAccepted at h
  by_cases hb : (1 < n ∧ r.prerelease = true)
  · rw [if_pos hb] at h
    cases h
  · rw [if_neg hb] at h
    by_cases hv : versionOk ctf (cleanTag r.tag_name) = true
    · simp only [hv, if_pos] at h
      cases h
      exact ⟨rfl, hv⟩
    · simp only [if_neg hv] at h
      cases h

/-! ### Characterising the semver regex and substring membership -/

theorem string_eq_of_toList {s t : String} (h : s.toList = t.toList) : s = t :=
  congrArg String.mk h

theorem toList_append (x y : String) : (x ++ y).toList = x.toList ++ y.toList := by
  cases x
  cases y
  rfl

theorem toList_dot : ("." : String).toList = ['.'] := rfl

theorem mk_ne_empty {l : List Char} (h : l ≠ []) : String.mk l ≠ "" := by
  intro he
  exact h (congrArg String.toList he)

theorem toList_ne_nil {s : String} (h : s ≠ "") : s.toList ≠ [] := by
  intro he
  exact h (string_eq_of_toList (by rw [he]; rfl))

theorem ne_nil_of_isEmpty_false {α : Type} {l : List α} (h : l.isEmpty = false) :
    l ≠ [] := by
  intro he
  subst he
  cases h

theorem isEmpty_false_of_ne_nil {α : Type} {l : List α} (h : l ≠ []) :
    l.isEmpty = false := by
  cases l with
  | nil => exact absurd rfl h
  | cons x xs => rfl

theorem splitCharsOn_nil (c : Char) : splitCharsOn c [] = [[]] := rfl

theorem splitCharsOn_cons (c a : Char) (as : List Char) :
    splitCharsOn c (a :: as) =
      (if a = c then [] :: splitCharsOn c as
       else
         match splitCharsOn c as with
         | [] => [[a]]
         | g :: gs => (a :: g) :: gs) := rfl

theorem splitCharsOn_not_mem (c : Char) :
    ∀ (g : List Char), c ∉ g → splitCharsOn c g = [g] := by
  intro g
  induction g with
  | nil => intro _; rfl
  | cons a as ih =>
    intro hnm
    have hac : a ≠ c := fun he => hnm (by rw [he]; exact List.mem_cons_self c as)
    have has : c ∉ as := fun hm => hnm (List.mem_cons_of_mem a hm)
    rw [splitCharsOn_cons, if_neg hac, ih has]

theorem splitCharsOn_append (c : Char) :
    ∀ (g rest : List Char), c ∉ g →
      splitCharsOn c (g ++ c :: rest) = g :: splitCharsOn c rest := by
  intro g
  induction g with
  | nil =>
    intro rest _
    rw [List.nil_append, splitCharsOn_cons, if_pos rfl]
  | cons a as ih =>
    intro rest hnm
    have hac : a ≠ c := fun he => hnm (by rw [he]; exact List.mem_cons_self c as)
    have has : c ∉ as := fun hm => hnm (List.mem_cons_of_mem a hm)
    rw [List.cons_append, splitCharsOn_cons, if_neg hac, ih rest has]

theorem joinSplit_single (c : Char) (g : List Char) : joinSplit c [g] = g := rfl

theorem joinSplit_cons2 (c : Char) (g g2 : List Char) (gs : List (List Char)) :
    joinSplit c (g :: g2 :: gs) = g ++ c :: joinSplit c (g2 :: gs) := rfl

theorem splitCharsOn_join (c : Char) :
    ∀ l : List Char, joinSplit c (splitCharsOn c l) = l := by
  intro l
  induction l with
  | nil => rfl
  | cons a as ih =>
    rw [splitCharsOn_cons]
    by_cases hac : a = c
    · rw [if_pos hac]
      cases hs : splitCharsOn c as with
      | nil => exact absurd hs (splitCharsOn_ne_nil c as)
      | cons g gs =>
        rw [joinSplit_cons2, List.nil_append, ← hs, ih, hac]
    · rw [if_neg hac]
      cases hs : splitCharsOn c as with
      | nil => exact absurd hs (splitCharsOn_ne_nil c as)
      | cons g gs =>
        show joinSplit c ((a :: g) :: gs) = a :: as
        cases gs with
        | nil =>
          rw [joinSplit_single]
          have hg : g = as := by rw [← joinSplit_single c g, ← hs, ih]
          rw [hg]
        | cons g2 gs2 =>
          rw [joinSplit_cons2]
          have hg : g ++ c :: joinSplit c (g2 :: gs2) = as := by
            rw [← joinSplit_cons2, ← hs, ih]
          rw [List.cons_append, hg]

theorem digit_ne_dot {ch : Char} (h : ch.isDigit = true) : ch ≠ '.' := by
  intro he
  subst he
  exact absurd h (by decide)

theorem dot_not_mem_of_digits {l : List Char} (h : ∀ ch ∈ l, ch.isDigit = true) :
    ('.' : Char) ∉ l := by
  intro hm
  exact absurd rfl (digit_ne_dot (h '.' hm))

theorem semver3_of_groups {a b c : List Char} {s : String}
    (hsp : splitCharsOn '.' s.toList = [a, b, c])
    (ha : a ≠ []) (hb : b ≠ []) (hc : c ≠ [])
    (hda : allDigits a = true) (hdb : allDigits b = true) (hdc : allDigits c = true) :
    semver3 s = true := by
  unfold semver3
  rw [hsp]
  show (!a.isEmpty && !b.isEmpty && !c.isEmpty
      && allDigits a && allDigits b && allDigits c) = true
  rw [isEmpty_false_of_ne_nil ha, isEmpty_false_of_ne_nil hb, isEmpty_false_of_ne_nil hc,
    hda, hdb, hdc]
  rfl

theorem semver3_true_inv {s : String} (h : semver3 s = true) :
    ∃ a b c : List Char, splitCharsOn '.' s.toList = [a, b, c] ∧
      a ≠ [] ∧ b ≠ [] ∧ c ≠ [] ∧
      allDigits a = true ∧ allDigits b = true ∧ allDigits c = true := by
  unfold semver3 at h
  cases hsp : splitCharsOn '.' s.toList with
  | nil => rw [hsp] at h; cases h
  | cons a t1 =>
    cases t1 with
    | nil => rw [hsp] at h; cases h
    | cons b t2 =>
      cases t2 with
      | nil => rw [hsp] at h; cases h
      | cons c t3 =>
        cases t3 with
        | cons d t4 => rw [hsp] at h; cases h
        | nil =>
          rw [hsp] at h
          have h2 : (!a.isEmpty && !b.isEmpty && !c.isEmpty
              && allDigits a && allDigits b && allDigits c) = true := h
          rw [Bool.and_eq_true, Bool.and_eq_true, Bool.and_eq_true, Bool.and_eq_true,
            Bool.and_eq_true, Bool.not_eq_true', Bool.not_eq_true', Bool.not_eq_true'] at h2
          obtain ⟨⟨⟨⟨⟨h1e, h2e⟩, h3e⟩, h4d⟩, h5d⟩, h6d⟩ := h2
          exact ⟨a, b, c, rfl, ne_nil_of_isEmpty_false h1e, ne_nil_of_isEmpty_false h2e,
            ne_nil_of_isEmpty_false h3e, h4d, h5d, h6d⟩

theorem semver3_iff_ThreeNumeric (s : String) : semver3 s = true ↔ ThreeNumeric s := by
  constructor
  · intro h
    obtain ⟨a, b, c, hsp, ha, hb, hc, hda, hdb, hdc⟩ := semver3_true_inv h
    refine ⟨String.mk a, String.mk b, String.mk c, ?_, mk_ne_empty ha, mk_ne_empty hb,
      mk_ne_empty hc, ?_, ?_, ?_⟩
    · apply string_eq_of_toList
      have hj : s.toList = joinSplit '.' (splitCharsOn '.' s.toList) :=
        (splitCharsOn_join '.' s.toList).symm
      rw [hsp] at hj
      have hj2 : s.toList = a ++ '.' :: (b ++ '.' :: c) := hj
      rw [hj2, toList_append, toList_append, toList_append, toList_append]
      show a ++ '.' :: (b ++ '.' :: c) = a ++ ['.'] ++ b ++ ['.'] ++ c
      simp [List.append_assoc]
    · exact fun ch hch => List.all_eq_true.mp hda ch hch
    · exact fun ch hch => List.all_eq_true.mp hdb ch hch
    · exact fun ch hch => List.all_eq_true.mp hdc ch hch
  · intro h
    obtain ⟨a, b, c, hseq, ha, hb, hc, hda, hdb, hdc⟩ := h
    have hna : ('.' : Char) ∉ a.toList := dot_not_mem_of_digits hda
    have hnb : ('.' : Char) ∉ b.toList := dot_not_mem_of_digits hdb
    have hnc : ('.' : Char) ∉ c.toList := dot_not_mem_of_digits hdc
    have hdata : s.toList = a.toList ++ '.' :: (b.toList ++ '.' :: c.toList) := by
      rw [hseq, toList_append, toList_append, toList_append, toList_append, toList_dot]
      simp [List.append_assoc]
    refine semver3_of_groups ?_ (toList_ne_nil ha) (toList_ne_nil hb) (toList_ne_nil hc)
      (List.all_eq_true.mpr hda) (List.all_eq_true.mpr hdb) (List.all_eq_true.mpr hdc)
    rw [hdata, splitCharsOn_append '.' a.toList _ hna,
      splitCharsOn_append '.' b.toList _ hnb, splitCharsOn_not_mem '.' c.toList hnc]

theorem isPrefCh_iff (needle : List Char) :
    ∀ hay, isPrefCh needle hay = true ↔ ∃ t, hay = needle ++ t := by
  induction needle with
  | nil =>
    intro hay
    constructor
    · intro _
      exact ⟨hay, rfl⟩
    · intro _
      rfl
  | cons a as ih =>
    intro hay
    cases hay with
    | nil =>
      constructor
      · intro h
        cases h
      · intro ⟨t, ht⟩
        cases ht
    | cons b bs =>
      show (if a = b then isPrefCh as bs else false) = true ↔ _
      by_cases hab : a = b
      · subst hab
        rw [if_pos rfl, ih bs]
        constructor
        · intro ⟨t, ht⟩
          exact ⟨t, by rw [ht, List.cons_append]⟩
        · intro ⟨t, ht⟩
          rw [List.cons_append] at ht
          exact ⟨t, (List.cons.injEq _ _ _ _).mp ht |>.2⟩
      · rw [if_neg hab]
        constructor
        · intro h
          cases h
        · intro ⟨t, ht⟩
          rw [List.cons_append] at ht
          exact absurd ((List.cons.injEq _ _ _ _).mp ht).1.symm hab

theorem hasSub_iff (needle : List Char) :
    ∀ hay, hasSub needle hay = true ↔ HasSubSeq needle hay := by
  intro hay
  induction hay with
  | nil =>
    show isPrefCh needle [] = true ↔ _
    cases needle with
    | nil =>
      constructor
      · intro _
        exact ⟨[], [], rfl⟩
      · intro _
        rfl
    | cons a as =>
      constructor
      · intro h
        cases h
      · intro ⟨x, y, hxy⟩
        simp at hxy
  | cons b bs ih =>
    show (isPrefCh needle (b :: bs) || hasSub needle bs) = true ↔ _
    rw [Bool.or_eq_true, isPrefCh_iff, ih]
    constructor
    · intro hc
      rcases hc with ⟨t, ht⟩ | ⟨x, y, hxy⟩
      · exact ⟨[], t, by rw [ht, List.nil_append]⟩
      · exact ⟨b :: x, y, by rw [hxy, List.cons_append, List.cons_append]⟩
    · intro ⟨x, y, hxy⟩
      cases x with
      | nil =>
        rw [List.nil_append] at hxy
        exact Or.inl ⟨y, hxy⟩
      | cons x0 xs =>
        rw [List.cons_append, List.cons_append] at hxy
        have h2 := (List.cons.injEq _ _ _ _).mp hxy
        exact Or.inr ⟨xs, y, h2.2⟩

/-! ### Unfolding the filter per component -/

theorem versionOk_karpenter (v : String) :
    versionOk (some "karpenter") v = (!hasSubStr "-controller-" v && semver3 v) := by
  unfold versionOk
  rw [if_pos rfl]

theorem versionOk_datadog (v : String) :
    versionOk (some "datadog") v = semver3 v := by
  unfold versionOk
  rw [if_neg (by simp), if_pos rfl]

theorem versionOk_other (ctf : Option String) (v : String)
    (h1 : ctf ≠ some "karpenter") (h2 : ctf ≠ some "datadog") :
    versionOk ctf v = true := by
  unfold versionOk
  rw [if_neg h1, if_neg h2]

/-! ### The claims -/

/-- C1: for every document position named by a dotted key path holding a
current value, `update_metadata_value` writes the discovered version into the
nested key if and only if it differs from the current value; when they are
equal the whole document is returned unchanged (with `False`). -/
theorem C1_update_iff_different (m old : Json) (key_path v : String)
    (h : lookupPath m (splitPath key_path) = some old) :
    (old = Json.str v → update_metadata_value m key_path v = some (false, m)) ∧
    (old ≠ Json.str v →
      ∃ m2, update_metadata_value m key_path v = some (true, m2) ∧
        lookupPath m2 (splitPath key_path) = some (Json.str v)) := by
  constructor
  · intro he
    subst he
    exact updatePath_of_lookup_eq (splitPath key_path) m (Json.str v) v
      (splitPath_ne_nil key_path) h (by simp [pyEqStr])
  · intro hne
    have hpe : pyEqStr old v = false := by
      cases old with
      | str s =>
        simp only [pyEqStr, decide_eq_false_iff_not]
        intro he
        exact hne (by rw [he])
      | num n => rfl
      | obj kvs => rfl
    exact updatePath_of_lookup_ne (splitPath key_path) m old v
      (splitPath_ne_nil key_path) h hpe

/-- Witness for C1 on a concrete document and version bump. -/
theorem C1_update_iff_different_witness :
    ∃ m2,
      update_metadata_value
        (Json.obj [("karpenter", Json.obj [("version", Json.str "1.0.0")])])
        "karpenter.version" "1.0.1" = some (true, m2) ∧
      lookupPath m2 (splitPath "karpenter.version") = some (Json.str "1.0.1") :=
  (C1_update_iff_different
    (Json.obj [("karpenter", Json.obj [("version", Json.str "1.0.0")])])
    (Json.str "1.0.0") "karpenter.version" "1.0.1" rfl).2
    (by intro he; injection he with h2; exact absurd h2 (by decide))

/-- C2: in a finished run, every path that is prefix-incomparable with every
dotted key path named by the component table resolves to the same value in
the written document as in the loaded one — unrelated keys are preserved. -/
theorem C2_frame (m m2 : Json) (fetch : String → FetchResult) (changes : List String)
    (p : List String)
    (hrun : runMain (LoadResult.ok m) fetch = MainResult.finished m2 changes)
    (hsep : ∀ q ∈ allKeyPaths, sepPaths p (splitPath q)) :
    lookupPath m2 p = lookupPath m p := by
  have hrc := runMain_finished_inv m fetch m2 changes hrun
  refine runComponents_frame fetch COMPONENTS (m, ([] : List String)) (m2, changes) hrc p ?_
  intro pr hpr
  exact hsep pr.2 (List.mem_map.mpr ⟨pr, hpr, rfl⟩)

/-- Witness for C2 on a run that does change the karpenter version. -/
theorem C2_frame_witness :
    lookupPath (Json.obj [("karpenter", Json.obj [("version", Json.str "2.0.0")])]) ["other"] =
      lookupPath (Json.obj [("karpenter", Json.obj [("version", Json.str "1.0.0")])]) ["other"] :=
  C2_frame (Json.obj [("karpenter", Json.obj [("version", Json.str "1.0.0")])])
    (Json.obj [("karpenter", Json.obj [("version", Json.str "2.0.0")])])
    (fun _ => FetchResult.success [Release.mk "v2.0.0" false])
    ["karpenter: version updated to 2.0.0"] ["other"] rfl (by decide)

/-- C3: the selected version is the first release in listed order accepted by
the loop body; releases after the first accepted one are never chosen. -/
theorem C3_first_accepted (check_tag_format : Option String)
    (pre post : List Release) (r : Release) (v : String)
    (hpre : ∀ r2 ∈ pre,
      releaseAccepted (pre ++ r :: post).length check_tag_format r2 = none)
    (hr : releaseAccepted (pre ++ r :: post).length check_tag_format r = some v) :
    get_github_release_info (FetchResult.success (pre ++ r :: post)) check_tag_format =
      some v :=
  findRelease_first (pre ++ r :: post).length check_tag_format pre r post v hpre hr

/-- Witness for C3: the prerelease is skipped, the next release is selected,
the one after it is never reached. -/
theorem C3_first_accepted_witness :
    get_github_release_info (FetchResult.success
      [Release.mk "v1.1.0-rc1" true, Release.mk "v1.0.0" false, Release.mk "v0.9.0" false])
      none = some "1.0.0" :=
  C3_first_accepted none [Release.mk "v1.1.0-rc1" true] [Release.mk "v0.9.0" false]
    (Release.mk "v1.0.0" false) "1.0.0" (by decide) (by decide)

/-- C4 counterexample: with exactly one listed release the guard
`releases.totalCount > 1` is false, so a release marked prerelease is
selected — prereleases are not unconditionally skipped. -/
theorem C4_counterexample :
    (Release.mk "v1.0.0" true).prerelease = true ∧
    get_github_release_info (FetchResult.success [Release.mk "v1.0.0" true]) none =
      some "1.0.0" :=
  ⟨rfl, rfl⟩

/-- C4 amended: whenever the release source lists more than one release,
every selected version comes from a release not marked as a prerelease. -/
theorem C4_amended_skip_prereleases (rs : List Release) (ctf : Option String) (v : String)
    (hn : 1 < rs.length)
    (h : get_github_release_info (FetchResult.success rs) ctf = some v) :
    ∃ r, r ∈ rs ∧ r.prerelease = false ∧ releaseAccepted rs.length ctf r = some v := by
  obtain ⟨r, hm, ha⟩ := findRelease_mem_spec rs.length ctf rs v h
  exact ⟨r, hm, releaseAccepted_not_prerelease rs.length ctf r v hn ha, ha⟩

/-- Witness for the amended C4 with two listed releases. -/
theorem C4_amended_skip_prereleases_witness :
    ∃ r, r ∈ [Release.mk "v1.0.0" false, Release.mk "v0.9.0" true] ∧
      r.prerelease = false ∧ releaseAccepted 2 none r = some "1.0.0" :=
  C4_amended_skip_prereleases [Release.mk "v1.0.0" false, Release.mk "v0.9.0" true]
    none "1.0.0" (by decide) rfl

/-- C5: the component-specific acceptance checks — karpenter accepts exactly
the cleaned versions without "-controller-" that are three dot-separated
nonempty digit groups, datadog exactly the three-digit-group shape, and any
other `check_tag_format` accepts every cleaned version. -/
theorem C5_filters :
    (∀ v : String, versionOk (some "karpenter") v = true ↔
      (¬ HasSubSeq ("-controller-" : String).toList v.toList ∧ ThreeNumeric v)) ∧
    (∀ v : String, versionOk (some "datadog") v = true ↔ ThreeNumeric v) ∧
    (∀ (ctf : Option String) (v : String), ctf ≠ some "karpenter" →
      ctf ≠ some "datadog" → versionOk ctf v = true) := by
  refine ⟨?_, ?_, versionOk_other⟩
  · intro v
    rw [versionOk_karpenter, Bool.and_eq_true, Bool.not_eq_true', semver3_iff_ThreeNumeric]
    constructor
    · intro ⟨h1, h2⟩
      refine ⟨?_, h2⟩
      intro hss
      unfold hasSubStr at h1
      rw [(hasSub_iff _ _).mpr hss] at h1
      cases h1
    · intro ⟨h1, h2⟩
      refine ⟨?_, h2⟩
      unfold hasSubStr
      cases hb : hasSub ("-controller-" : String).toList v.toList with
      | false => rfl
      | true => exact absurd ((hasSub_iff _ _).mp hb) h1
  · intro v
    rw [versionOk_datadog, semver3_iff_ThreeNumeric]

/-- Witness for C5: a component other than karpenter and datadog accepts any
cleaned version. -/
theorem C5_filters_witness : versionOk none "anything-at-all" = true :=
  C5_filters.2.2 none "anything-at-all" (by simp) (by simp)

/-- C6: in a finished run the change record is the rendering of exactly those
`(component, key path)` pairs whose stored value actually changed between the
loaded and the written document, kept in the processing order of the
component table, and the GitHub-output block is written exactly when the
record is non-empty. -/
theorem C6_change_record (m m2 : Json) (fetch : String → FetchResult)
    (changes : List String)
    (hrun : runMain (LoadResult.ok m) fetch = MainResult.finished m2 changes) :
    (githubOutput changes = none ↔ changes = []) ∧
    ∃ evs : List (String × String),
      changes = evs.map (fun pr => changeLine pr.1 pr.2 (strAt m2 pr.2)) ∧
      List.Sublist evs (collectPairs COMPONENTS) ∧
      (∀ pr ∈ collectPairs COMPONENTS,
        (pr ∈ evs ↔ lookupPath m2 (splitPath pr.2) ≠ lookupPath m (splitPath pr.2))) := by
  constructor
  · cases changes with
    | nil => simp [githubOutput]
    | cons c cs => simp [githubOutput]
  · have hrc := runMain_finished_inv m fetch m2 changes hrun
    have hpw : List.Pairwise (fun a b => sepPaths (splitPath a.2) (splitPath b.2))
        (collectPairs COMPONENTS) := by decide
    obtain ⟨evs, h1, h2, h3⟩ := runComponents_spec fetch COMPONENTS
      (m, ([] : List String)) (m2, changes) hpw hrc
    exact ⟨evs, by simpa using h1, h2, h3⟩

/-- Witness for C6 on a run that changes exactly the karpenter version. -/
theorem C6_change_record_witness :
    (githubOutput ["karpenter: version updated to 2.0.0"] = none ↔
      (["karpenter: version updated to 2.0.0"] : List String) = []) ∧
    ∃ evs : List (String × String),
      ["karpenter: version updated to 2.0.0"] = evs.map (fun pr => changeLine pr.1 pr.2
        (strAt (Json.obj [("karpenter", Json.obj [("version", Json.str "2.0.0")])]) pr.2)) ∧
      List.Sublist evs (collectPairs COMPONENTS) ∧
      (∀ pr ∈ collectPairs COMPONENTS,
        (pr ∈ evs ↔
          lookupPath (Json.obj [("karpenter", Json.obj [("version", Json.str "2.0.0")])])
            (splitPath pr.2) ≠
          lookupPath (Json.obj [("karpenter", Json.obj [("version", Json.str "1.0.0")])])
            (splitPath pr.2))) :=
  C6_change_record (Json.obj [("karpenter", Json.obj [("version", Json.str "1.0.0")])])
    (Json.obj [("karpenter", Json.obj [("version", Json.str "2.0.0")])])
    (fun _ => FetchResult.success [Release.mk "v2.0.0" false])
    ["karpenter: version updated to 2.0.0"] rfl

/-- C7: when the fetch raises, `get_github_release_info` returns `None` and
the component loop skips the component, leaving the document and the change
list untouched and continuing with the remaining components. -/
theorem C7_fetch_failure_skips :
    (∀ ctf : Option String, get_github_release_info FetchResult.failure ctf = none) ∧
    (∀ (fetch : String → FetchResult) (name : String) (cfg : ComponentConfig)
      (acc : Json × List String), fetch name = FetchResult.failure →
      processComponent fetch acc (name, cfg) = some acc) := by
  constructor
  · intro _
    rfl
  · intro fetch name cfg acc hf
    unfold processComponent
    rw [hf]
    rfl

/-- Witness for C7: a failing fetch for karpenter leaves the state as is. -/
theorem C7_fetch_failure_skips_witness :
    processComponent (fun _ => FetchResult.failure)
      (Json.obj [("karpenter", Json.obj [("version", Json.str "1.0.0")])], ([] : List String))
      ("karpenter",
        { github_repo := "aws/karpenter-provider-aws", chart_path := none,
          metadata_key := MetadataKey.single "karpenter.version" }) =
      some (Json.obj [("karpenter", Json.obj [("version", Json.str "1.0.0")])],
        ([] : List String)) :=
  C7_fetch_failure_skips.2 (fun _ => FetchResult.failure) "karpenter"
    { github_repo := "aws/karpenter-provider-aws", chart_path := none,
      metadata_key := MetadataKey.single "karpenter.version" }
    (Json.obj [("karpenter", Json.obj [("version", Json.str "1.0.0")])], ([] : List String))
    rfl

/-- C8 counterexample: in `{"a": "bc"}` the key "b" below "a" is absent (the
path "a.b" does not resolve), yet `update_metadata_value` raises — Python
evaluates `"b" in "bc"` as a substring test and then `"bc"["b"]` is a
`TypeError` — instead of returning `False` and leaving the document
unchanged. -/
theorem C8_counterexample :
    lookupPath (Json.obj [("a", Json.str "bc")]) (splitPath "a.b") = none ∧
    update_metadata_value (Json.obj [("a", Json.str "bc")]) "a.b" "x" = none :=
  ⟨rfl, rfl⟩

/-- C8 amended: `update_metadata_value` never creates keys — whenever the
walk along the dotted path meets only objects and finds some key of the path
(including the final one) absent, it returns `False` and leaves the document
completely unchanged. -/
theorem C8_amended_no_create (m : Json) (key_path v : String)
    (h : missingOnObjPath m (splitPath key_path) = true) :
    update_metadata_value m key_path v = some (false, m) :=
  updatePath_of_missing (splitPath key_path) m v h

/-- Witness for the amended C8: the final key "b" is absent below "a". -/
theorem C8_amended_no_create_witness :
    update_metadata_value (Json.obj [("a", Json.obj [])]) "a.b" "x" =
      some (false, Json.obj [("a", Json.obj [])]) :=
  C8_amended_no_create (Json.obj [("a", Json.obj [])]) "a.b" "x" (by decide)

/-- C9: a missing or unparsable metadata file makes `main` exit with status 1
whatever the fetch behaviour would have been — the `exit1` outcome performs
no fetch, writes no file and emits no changes output. -/
theorem C9_exit_before_fetch :
    ∀ fetch fetch2 : String → FetchResult,
      runMain LoadResult.fileNotFound fetch = MainResult.exit1 ∧
      runMain LoadResult.invalidJson fetch = MainResult.exit1 ∧
      runMain LoadResult.fileNotFound fetch = runMain LoadResult.fileNotFound fetch2 ∧
      runMain LoadResult.invalidJson fetch = runMain LoadResult.invalidJson fetch2 :=
  fun _ _ => ⟨rfl, rfl, rfl, rfl⟩

/-- C10: exactly one leading 'v' is stripped — when the raw tag starts with
'v' the cleaned version is its tail and differs from the raw tag, otherwise
the tag is used verbatim; and every version the loop returns is the cleaned
tag. -/
theorem C10_strip_v :
    (∀ t : String, t.toList.head? = some 'v' →
      cleanTag t = String.mk t.toList.tail ∧ cleanTag t ≠ t) ∧
    (∀ t : String, t.toList.head? ≠ some 'v' → cleanTag t = t) ∧
    (∀ (n : Nat) (ctf : Option String) (r : Release) (v : String),
      releaseAccepted n ctf r = some v → v = cleanTag r.tag_name) := by
  refine ⟨?_, ?_, ?_⟩
  · intro t hh
    cases hl : t.toList with
    | nil => rw [hl] at hh; cases hh
    | cons a as =>
      rw [hl] at hh
      have ha : a = 'v' := Option.some.inj hh
      subst ha
      constructor
      · unfold cleanTag
        rw [hl]
        rfl
      · intro he
        have h1 : cleanTag t = String.mk as := by unfold cleanTag; rw [hl]; rfl
        have h2 : t = String.mk ('v' :: as) := congrArg String.mk hl
        rw [h1, h2] at he
        have h3 : as = 'v' :: as := congrArg String.toList he
        have h4 := congrArg List.length h3
        simp at h4
  · intro t hh
    cases hl : t.toList with
    | nil =>
      unfold cleanTag
      rw [hl]
    | cons a as =>
      unfold cleanTag
      rw [hl]
      split
      · rename_i rest heq
        injection heq with ha hrest
        exact absurd (by rw [hl, ha]; rfl) hh
      · rfl
  · intro n ctf r v h
    exact (releaseAccepted_some_inv n ctf r v h).1

/-- Witness for C10: a double-v tag loses exactly one 'v', a bare tag is kept
verbatim, and a concrete selection returns the cleaned tag. -/
theorem C10_strip_v_witness :
    (cleanTag "vv1.0" = String.mk ("vv1.0" : String).toList.tail ∧ cleanTag "vv1.0" ≠ "vv1.0") ∧
    cleanTag "1.2.3" = "1.2.3" ∧
    ("1.0.0" : String) = cleanTag (Release.mk "v1.0.0" false).tag_name :=
  ⟨C10_strip_v.1 "vv1.0" rfl, C10_strip_v.2.1 "1.2.3" (by decide),
    C10_strip_v.2.2 1 none (Release.mk "v1.0.0" false) "1.0.0" rfl⟩
